import Mathlib

/-!
Verification development for the avro C++ schema core
(`lang/c++/api/NodeImpl.hh` and `lang/c++/impl/Compiler.cc`).

The schema node model and the compiler context are embedded shallowly:

* A C++ `NodePtr` tree becomes the inductive `Node`.  Each node kind keeps
  exactly the attribute slots its C++ `NodeImpl` instantiation enables:
  `SingleAttribute`/`MultiAttribute` contents are lists (a `SingleAttribute`
  is a list that the API keeps at length at most one; the `isValid` methods
  test `size() == 1` on it, which we mirror as `length == 1`).
* `boost::weak_ptr<Node> actualNode_` of `NodeSymbolic` becomes
  `Option Node`: `lock()` succeeding corresponds to `some target`; a weak
  pointer that was never assigned (or whose referent is gone) yields `none`.
* Fallible C++ member functions (ones that can `throw Exception`) become
  `Except String` computations; the strings correspond to the thrown
  messages.
-/

set_option autoImplicit false

/-- The `avro::Type` enumeration (`Types.hh`): the eight primitive kinds,
the five compound kinds, plus the symbolic placeholder kind. -/
inductive AvroType where
  | tString | tBytes | tInt | tLong | tFloat | tDouble | tBool | tNull
  | tRecord | tEnum | tArray | tMap | tUnion | tFixed | tSymbolic
deriving DecidableEq, Repr

/-- One schema node, as in `NodeImpl.hh`.  Each constructor corresponds to
one concrete `Node*` class and carries the attribute slots that class
enables:

* `primitive`  = `NodePrimitive`  (no attributes beyond the type tag);
* `symbolic`   = `NodeSymbolic`   (name attribute + weak target pointer);
* `record`     = `NodeRecord`     (name, leaves, leaf names, namespace);
* `enum`       = `NodeEnum`       (name, leaf names, namespace);
* `array`      = `NodeArray`      (single leaf);
* `map`        = `NodeMap`        (multi leaves);
* `union`      = `NodeUnion`      (multi leaves);
* `fixed`      = `NodeFixed`      (name, size, namespace). -/
inductive Node where
  | primitive (t : AvroType)
  | symbolic (names : List String) (actual : Option Node)
  | record (names : List String) (leaves : List Node) (leafNames : List String)
      (ns : List String)
  | enum (names : List String) (leafNames : List String) (ns : List String)
  | array (leaves : List Node)
  | map (leaves : List Node)
  | union (leaves : List Node)
  | fixed (names : List String) (sizes : List Int) (ns : List String)
deriving Repr

/-- `Node::type()`: the fixed type tag of a node. -/
def Node.type : Node → AvroType
  | .primitive t => t
  | .symbolic _ _ => .tSymbolic
  | .record _ _ _ _ => .tRecord
  | .enum _ _ _ => .tEnum
  | .array _ => .tArray
  | .map _ => .tMap
  | .union _ => .tUnion
  | .fixed _ _ _ => .tFixed

/-- The contents of a node's `leafAttributes_` slot (empty for the kinds
whose `LeavesConcept` is `NoAttribute`). -/
def Node.leavesOf : Node → List Node
  | .record _ lv _ _ => lv
  | .array lv => lv
  | .map lv => lv
  | .union lv => lv
  | _ => []

/-- Rebuild a node with a new `leafAttributes_` contents (used to express
the in-place child replacement of `setLeafToSymbolic`). -/
def Node.withLeaves : Node → List Node → Node
  | .record nm _ lns ns, lv => .record nm lv lns ns
  | .array _, lv => .array lv
  | .map _, lv => .map lv
  | .union _, lv => .union lv
  | n, _ => n

/-- `LeavesConcept::hasAttribute` for a node kind: true exactly for the
kinds instantiated with `SingleLeaf` or `MultiLeaves`. -/
def hasLeafAttr : AvroType → Bool
  | .tRecord => true
  | .tArray => true
  | .tMap => true
  | .tUnion => true
  | _ => false

/-- `Node::leaves()` (`leafAttributes_.size()`), the child count. -/
def Node.childCount (n : Node) : Nat := n.leavesOf.length

/-- `NodeImpl::name()` = `nameAttribute_.get()`.

Modelled from the spec: `NodeConcepts.hh` is not part of this source
snapshot.  Per the spec, `name()` "fails (misuse error) if the kind does
not carry that attribute; otherwise returns the single stored value" — so
a `NoAttribute` slot fails, while a `SingleAttribute` returns its stored
string (the default-constructed empty string when it was never set, which
is what lets `getNamespace().empty()` in `Compiler.cc` distinguish
"no namespace" from a real one without throwing). -/
def Node.name : Node → Except String String
  | .symbolic names _ => .ok (names.headD "")
  | .record names _ _ _ => .ok (names.headD "")
  | .enum names _ _ => .ok (names.headD "")
  | .fixed names _ _ => .ok (names.headD "")
  | _ => .error "This type does not have attribute"

/-- `NodeImpl::getNamespace()` = `namespaceAttribute_.get()`.

Modelled from the spec, like `Node.name` (the `NamespaceConcept` is
`HasNamespace` only for record, enum and fixed). -/
def Node.getNamespace : Node → Except String String
  | .record _ _ _ ns => .ok (ns.headD "")
  | .enum _ _ ns => .ok (ns.headD "")
  | .fixed _ _ ns => .ok (ns.headD "")
  | _ => .error "This type does not have attribute"

/-- `NodeImpl::doAddLeaf`: `leafAttributes_.add(newLeaf)`.  A `MultiLeaves`
slot appends; the `SingleLeaf` slot of an array accepts only one value; a
`NoAttribute` slot fails (misuse). -/
def Node.doAddLeaf : Node → Node → Except String Node
  | .record nm lv lns ns, leaf => .ok (.record nm (lv ++ [leaf]) lns ns)
  | .map lv, leaf => .ok (.map (lv ++ [leaf]))
  | .union lv, leaf => .ok (.union (lv ++ [leaf]))
  | .array lv, leaf =>
      if lv.length = 0 then .ok (.array (lv ++ [leaf]))
      else .error "SingleAttribute can only be set once"
  | _, _ => .error "This type does not have attribute"

/-- The discriminant string computed for one union branch by the `switch`
inside `NodeUnion::isValid` (`NodeImpl.hh` lines 396–436): a constant
string per primitive kind, `"array"` for arrays, `"map"` for maps, and
`n->name()` for record, enum, union, fixed and symbolic branches. -/
def unionDiscriminant (n : Node) : Except String String :=
  match n.type with
  | .tString => .ok "string"
  | .tBytes => .ok "bytes"
  | .tInt => .ok "int"
  | .tLong => .ok "long"
  | .tFloat => .ok "float"
  | .tDouble => .ok "double"
  | .tBool => .ok "bool"
  | .tNull => .ok "null"
  | .tArray => .ok "array"
  | .tMap => .ok "map"
  | .tRecord => n.name
  | .tEnum => n.name
  | .tUnion => n.name
  | .tFixed => n.name
  | .tSymbolic => n.name

/-- The `for` loop of `NodeUnion::isValid` with its `seen` set of
discriminants already encountered (`std::set<std::string>` modelled as the
list of its members): a repeated discriminant returns `false`, otherwise
the discriminant is inserted and the loop continues; reaching the end
yields `true`. -/
def unionValidLoop : List Node → List String → Except String Bool
  | [], _ => .ok true
  | n :: rest, seen =>
      match unionDiscriminant n with
      | .error e => .error e
      | .ok name =>
          if seen.contains name then .ok false
          else unionValidLoop rest (name :: seen)

/-- `isValid()` of each concrete node class, straight from `NodeImpl.hh`:
primitive: `true`; symbolic: one name; record: one name and as many leaves
as leaf names; enum: one name, at least one symbol; array: one leaf; map:
two leaves; union: the discriminant loop guarded by `size() >= 1`; fixed:
one name and one size.  The result is `Except` because the union loop
calls `name()` on branches, which can fail. -/
def Node.isValid : Node → Except String Bool
  | .primitive _ => .ok true
  | .symbolic names _ => .ok (names.length == 1)
  | .record names lv lns _ => .ok (names.length == 1 && lv.length == lns.length)
  | .enum names lns _ => .ok (names.length == 1 && decide (lns.length > 0))
  | .array lv => .ok (lv.length == 1)
  | .map lv => .ok (lv.length == 2)
  | .union lv =>
      if lv.length ≥ 1 then unionValidLoop lv [] else .ok false
  | .fixed names sizes _ => .ok (names.length == 1 && sizes.length == 1)

/-- `NodeSymbolic::getNode()`: lock the weak pointer; a dead or never-set
reference fails with the "could not follow symbol" error. -/
def NodeSymbolic.getNode (names : List String) (actual : Option Node) :
    Except String Node :=
  match actual with
  | some node => .ok node
  | none => .error ("Could not follow symbol " ++ names.headD "")

/-- `avro::resolveSymbol` (`NodeImpl.hh` lines 538–545): only a node whose
`type()` is `AVRO_SYMBOLIC` may be resolved (only the `symbolic`
constructor has that tag), and resolution then follows the weak
reference via `getNode()`. -/
def resolveSymbol (node : Node) : Except String Node :=
  match node with
  | .symbolic names actual => NodeSymbolic.getNode names actual
  | _ => .error "Only symbolic nodes may be resolved"

/-- The full-name computation inside `NodeImpl::setLeafToSymbolic`
(`NodeImpl.hh` lines 481–486): start empty, append `namespace` and a dot
when the namespace is non-empty, then append the simple name. -/
def nodeFullname (node : Node) : Except String String :=
  match node.getNamespace with
  | .error e => .error e
  | .ok ns =>
      match node.name with
      | .error e => .error e
      | .ok nm => .ok ((if ns = "" then "" else ns ++ ".") ++ nm)

/-- The body of `NodeImpl::setLeafToSymbolic` acting on the leaf list:
fetch the child at `index`, compute the target's full name, fail unless
the existing child's name equals it, and otherwise replace the child slot
with a fresh `NodeSymbolic` named by the full name and holding a weak
reference to the target. -/
def setLeafToSymbolicList (leaves : List Node) (index : Nat) (node : Node) :
    Except String (List Node) :=
  match leaves.get? index with
  | none => .error "index out of range"
  | some replaceNode =>
      match nodeFullname node with
      | .error e => .error e
      | .ok fullname =>
          match replaceNode.name with
          | .error e => .error e
          | .ok rn =>
              if rn ≠ fullname then
                .error "Symbolic name does not match the name of the schema it references"
              else
                .ok (leaves.set index (.symbolic [fullname] (some node)))

/-- `NodeImpl::setLeafToSymbolic(index, node)` (`NodeImpl.hh` lines
472–498): fails immediately when the node kind has no leaf attribute
(`!B::hasAttribute`), otherwise rewrites the leaf list. -/
def Node.setLeafToSymbolic (n : Node) (index : Nat) (node : Node) :
    Except String Node :=
  if hasLeafAttr n.type then
    match setLeafToSymbolicList n.leavesOf index node with
    | .error e => .error e
    | .ok lv => .ok (n.withLeaves lv)
  else .error "Cannot change leaf node for nonexistent leaf"

/-- `NodeMap::NodeMap()` (default constructor): starts with no leaves and
immediately `doAddLeaf`s the implicit string key type. -/
def NodeMap.default : Node := .map ([] ++ [Node.primitive .tString])

/-- Swap the first two entries of a list (the
`std::swap(leafAttributes_.get(0), leafAttributes_.get(1))` in the map
constructor). -/
def listSwapFirstTwo {α : Type} : List α → List α
  | a :: b :: rest => b :: a :: rest
  | l => l

/-- `NodeMap::NodeMap(const SingleLeaf &values)`: the value type arrives
as the first leaf, the implicit string key is appended after it, and the
two are swapped so the key goes before the value. -/
def NodeMap.ofValues (v : Node) : Node :=
  .map (listSwapFirstTwo ([v] ++ [Node.primitive .tString]))

/-- `NameIndexConcept::lookup` on the name-to-declaration-index map.

Modelled from the spec: `NodeConcepts.hh` holds the `NameIndexConcept`
(a `std::map<std::string, size_t>`); the spec says `lookup(name)` returns
the stored index or "not found".  The map is kept as the list of its
entries in insertion order (key lookup ignores order, and keys are unique
by construction). -/
def nameIndexLookup (name : String) : List (String × Nat) → Option Nat
  | [] => none
  | (k, v) :: rest => if k = name then some v else nameIndexLookup name rest

/-- `NameIndexConcept::add(name, index)`.

Modelled from the spec: "returns false (does not insert) if the name
already exists in this scope"; here `none` is the `false` result and
`some` carries the extended map. -/
def nameIndexAdd (name : String) (i : Nat) (idx : List (String × Nat)) :
    Option (List (String × Nat)) :=
  match nameIndexLookup name idx with
  | some _ => none
  | none => some (idx ++ [(name, i)])

/-- The `leafNameAttributes_` / `nameIndex_` pair of a record or enum
node under construction, the state read and written by
`NodeImpl::doAddName`. -/
structure NamedSlots where
  leafNames : List String
  nameIndex : List (String × Nat)
deriving DecidableEq, Repr

/-- `NodeImpl::doAddName` (`NodeImpl.hh` lines 116–121): try to insert the
name at index `leafNameAttributes_.size()`; a failed insert throws the
duplicate-name exception (leaving the node untouched), a successful one
appends the name to `leafNameAttributes_`. -/
def doAddName (name : String) (s : NamedSlots) : Except String NamedSlots :=
  match nameIndexAdd name s.leafNames.length s.nameIndex with
  | none => .error ("Cannot add duplicate name: " ++ name)
  | some idx => .ok ⟨s.leafNames ++ [name], idx⟩

/-- The duplicate-checking loop shared by the `NodeRecord` and `NodeEnum`
constructors (`NodeImpl.hh` lines 267–271 and 303–307): insert each leaf
name at its position, throwing on the first duplicate. -/
def buildNameIndex : List String → Nat → List (String × Nat) →
    Except String (List (String × Nat))
  | [], _, acc => .ok acc
  | n :: rest, i, acc =>
      match nameIndexAdd n i acc with
      | none => .error ("Cannot add duplicate name: " ++ n)
      | some acc2 => buildNameIndex rest (i + 1) acc2

/-- `NodeRecord::NodeRecord(name, fields, fieldsNames, ns)`: stores the
attributes and runs the duplicate-name loop over the field names. -/
def NodeRecord.make (name : List String) (fields : List Node)
    (fieldsNames : List String) (ns : List String) : Except String Node :=
  match buildNameIndex fieldsNames 0 [] with
  | .error e => .error e
  | .ok _ => .ok (.record name fields fieldsNames ns)

/-- `NodeEnum::NodeEnum(name, symbols, ns)`: stores the attributes and
runs the duplicate-name loop over the symbols. -/
def NodeEnum.make (name : List String) (symbols : List String)
    (ns : List String) : Except String Node :=
  match buildNameIndex symbols 0 [] with
  | .error e => .error e
  | .ok _ => .ok (.enum name symbols ns)

/-- The C `atol` used by `CompilerContext::setSizeAttribute`
(`Compiler.cc` line 119): accumulate the leading run of decimal digits. -/
def atolDigits : List Char → Int → Int
  | [], acc => acc
  | c :: cs, acc =>
      if c.isDigit then atolDigits cs (acc * 10 + (c.toNat - '0'.toNat : Int))
      else acc

/-- `atol(text)`: skip leading whitespace, honour one optional sign, then
convert the leading digit run (no digits gives `0`; trailing junk is
ignored — `atol` performs no validation at all). -/
def atol (s : String) : Int :=
  match s.data.dropWhile (fun c => c.isWhitespace) with
  | '-' :: rest => - atolDigits rest 0
  | '+' :: rest => atolDigits rest 0
  | cs => atolDigits cs 0

/-- The child-slot marker set by the `setValuesAttribute` /
`setTypesAttribute` / `setItemsAttribute` / `setFieldsAttribute` events
(`CompilerNode::AttributeType`). -/
inductive SlotMarker where
  | values | types | items | fields
deriving DecidableEq, Repr

/-- One in-progress build frame (`CompilerNode`).

Modelled from the spec: `Compiler.hh` (which declares `CompilerNode`) is
not part of this source snapshot; per the spec a frame accumulates the
kind tag, name, namespace, size, enum symbols, field names and finished
child nodes of the type being defined.  Attribute slots are lists in
arrival order, the kind tag is `none` until `addType`/`addNamedType`
sets it, and finished children land in `children`. -/
structure CompilerNode where
  ctype : Option AvroType := none
  nameAttribute : List String := []
  namespaceAttribute : List String := []
  sizeAttribute : List Int := []
  symbolsAttribute : List String := []
  fieldsNamesAttribute : List String := []
  children : List Node := []
  attributeType : Option SlotMarker := none
deriving Repr

/-- The builder state (`CompilerContext`): the frame stack, the namespace
stack and the finished root.  The C++ code uses `push_back`/`back()`/
`pop_back` on both stacks; both are modelled with the top of the stack at
the HEAD of the list (a consistent relabelling of positions). -/
structure CompilerContext where
  stack : List CompilerNode := []
  namespaceStack : List String := []
  root : Option Node := none
deriving Repr

/-- Apply an update to the top frame (`stack_.back()`); the C++ calls
`back()` without a guard, which is undefined on an empty stack, so the
empty case is a hard failure here. -/
def withTopFrame (f : CompilerNode → CompilerNode) (c : CompilerContext) :
    Except String CompilerContext :=
  match c.stack with
  | [] => .error "stack_.back() on empty stack"
  | top :: rest => .ok { c with stack := f top :: rest }

/-- `CompilerContext::startType`: push a fresh empty frame. -/
def startType (c : CompilerContext) : CompilerContext :=
  { c with stack := {} :: c.stack }

/-- `CompilerContext::addType(type)`: set the current frame's kind tag. -/
def addType (t : AvroType) (c : CompilerContext) :
    Except String CompilerContext :=
  withTopFrame (fun fr => { fr with ctype := some t }) c

/-- `CompilerContext::setSizeAttribute` (`Compiler.cc` lines 116–124):
`atol` the token text and add the result to the frame's size slot — no
rejection of malformed or negative text. -/
def setSizeAttribute (text : String) (c : CompilerContext) :
    Except String CompilerContext :=
  withTopFrame
    (fun fr => { fr with sizeAttribute := fr.sizeAttribute ++ [atol text] }) c

/-- `CompilerContext::addNamedType` (`Compiler.cc` lines 126–138): set the
frame's kind to `AVRO_SYMBOLIC` and add the token text, AS IS, to the
frame's name slot.  The namespace stack is consulted only by the debug
print; the in-code comment "KEHLI - do i need to get a namespace here?
YES YOU DO!" records that qualification is missing. -/
def addNamedType (text : String) (c : CompilerContext) :
    Except String CompilerContext :=
  withTopFrame
    (fun fr => { fr with
        ctype := some .tSymbolic
        nameAttribute := fr.nameAttribute ++ [text] }) c

/-- `CompilerContext::setNameAttribute`: add the token text to the
frame's name slot. -/
def setNameAttribute (text : String) (c : CompilerContext) :
    Except String CompilerContext :=
  withTopFrame
    (fun fr => { fr with nameAttribute := fr.nameAttribute ++ [text] }) c

/-- `CompilerContext::setNamespaceAttribute` (`Compiler.cc` lines
149–158): add the token text to the frame's namespace slot AND push it
onto the namespace stack. -/
def setNamespaceAttribute (text : String) (c : CompilerContext) :
    Except String CompilerContext :=
  match c.stack with
  | [] => .error "stack_.back() on empty stack"
  | top :: rest =>
      .ok { c with
        stack :=
          { top with namespaceAttribute := top.namespaceAttribute ++ [text] }
            :: rest
        namespaceStack := text :: c.namespaceStack }

/-- `CompilerContext::setSymbolsAttribute`: add an enum symbol. -/
def setSymbolsAttribute (text : String) (c : CompilerContext) :
    Except String CompilerContext :=
  withTopFrame
    (fun fr => { fr with symbolsAttribute := fr.symbolsAttribute ++ [text] }) c

/-- The four marker events (`setValuesAttribute`, `setTypesAttribute`,
`setItemsAttribute`, `setFieldsAttribute`): record which child slot
category subsequent child frames belong to. -/
def setMarkerAttribute (m : SlotMarker) (c : CompilerContext) :
    Except String CompilerContext :=
  withTopFrame (fun fr => { fr with attributeType := some m }) c

/-- `CompilerContext::textContainsFieldName`: record a record field
name. -/
def textContainsFieldName (text : String) (c : CompilerContext) :
    Except String CompilerContext :=
  withTopFrame
    (fun fr =>
      { fr with fieldsNamesAttribute := fr.fieldsNamesAttribute ++ [text] }) c

/-- The validation gate of `finishType()`.

Modelled from the spec: `nodeFromCompilerNode` is declared but not
defined in this source snapshot; per the spec, `finishType()` "converts
it into a concrete Node via the appropriate constructor for its kind,
validates it (a failing validation is a hard error)". -/
def validateBuiltNode (node : Node) : Except String Node :=
  match node.isValid with
  | .error e => .error e
  | .ok true => .ok node
  | .ok false => .error "schema node failed validation"

/-- `nodeFromCompilerNode`: convert a finished frame to a concrete node.

Modelled from the spec: the function is declared but not defined in this
source snapshot; per the spec, each kind dispatches to "the appropriate
constructor for its kind" (the constructors embedded above from
`NodeImpl.hh`), and the result passes the `validateBuiltNode` gate. -/
def nodeFromCompilerNode (cn : CompilerNode) : Except String Node :=
  match cn.ctype with
  | none => .error "compiler frame has no type"
  | some .tRecord =>
      match NodeRecord.make cn.nameAttribute cn.children
          cn.fieldsNamesAttribute cn.namespaceAttribute with
      | .error e => .error e
      | .ok node => validateBuiltNode node
  | some .tEnum =>
      match NodeEnum.make cn.nameAttribute cn.symbolsAttribute
          cn.namespaceAttribute with
      | .error e => .error e
      | .ok node => validateBuiltNode node
  | some .tArray => validateBuiltNode (Node.array cn.children)
  | some .tMap =>
      match cn.children with
      | [v] => validateBuiltNode (NodeMap.ofValues v)
      | _ => .error "map frame needs exactly one value type"
  | some .tUnion => validateBuiltNode (Node.union cn.children)
  | some .tFixed =>
      validateBuiltNode
        (Node.fixed cn.nameAttribute cn.sizeAttribute cn.namespaceAttribute)
  | some .tSymbolic => validateBuiltNode (Node.symbolic cn.nameAttribute none)
  | some t => validateBuiltNode (Node.primitive t)

/-- `CompilerContext::add(node)` (`Compiler.cc` lines 64–73): an empty
frame stack makes the node the root, otherwise the node is appended to
the parent frame (`CompilerNode::addNode` appends into the child slot
selected by the frame's marker; the slot category does not change which
list the child lands in here). -/
def addToContext (node : Node) (c : CompilerContext) : CompilerContext :=
  match c.stack with
  | [] => { c with root := some node }
  | parent :: rest =>
      { c with stack := { parent with children := parent.children ++ [node] } :: rest }

/-- `CompilerContext::stopType` (`Compiler.cc` lines 84–105): assert the
stack is non-empty, build the node from the top frame, pop the frame,
pop the namespace stack when the node is a record/fixed/enum with a
non-empty namespace, and attach the node to the parent (or promote it to
root). -/
def stopType (c : CompilerContext) : Except String CompilerContext :=
  match c.stack with
  | [] => .error "assert(!stack_.empty()) failed"
  | top :: rest =>
      match nodeFromCompilerNode top with
      | .error e => .error e
      | .ok node =>
          if node.type = .tRecord ∨ node.type = .tFixed ∨ node.type = .tEnum then
            match node.getNamespace with
            | .error e => .error e
            | .ok ns =>
                if ns ≠ "" then
                  match c.namespaceStack with
                  | [] => .error "namespaceStack_.pop_back() on empty stack"
                  | _ :: nsRest =>
                      .ok (addToContext node
                        { stack := rest, namespaceStack := nsRest,
                          root := c.root })
                else
                  .ok (addToContext node
                    { stack := rest, namespaceStack := c.namespaceStack,
                      root := c.root })
          else
            .ok (addToContext node
              { stack := rest, namespaceStack := c.namespaceStack,
                root := c.root })

mutual
/-- One parse event arriving while a frame is open: the attribute events
of §4.4, or a complete nested type definition (`sub`), which stands for
the `startType … finishType` of one child frame. -/
inductive BEvent where
  | evAddType (t : AvroType)
  | evSetName (s : String)
  | evSetNamespace (s : String)
  | evSetSize (s : String)
  | evAddSymbol (s : String)
  | evAddFieldName (s : String)
  | evMarker (m : SlotMarker)
  | evAddNamedTypeRef (s : String)
  | evSub (f : BFrame)

/-- A well-bracketed type definition: the events between one `startType`
and its matching `finishType`. -/
inductive BFrame where
  | mk (ops : BEvents)

/-- A list of build events (a bespoke list so the mutual recursion below
stays structural). -/
inductive BEvents where
  | nil
  | cons (e : BEvent) (rest : BEvents)
end

mutual
/-- Run one build event against the context, dispatching to the
`CompilerContext` operation it names. -/
def runEvent : BEvent → CompilerContext → Except String CompilerContext
  | .evAddType t, c => addType t c
  | .evSetName s, c => setNameAttribute s c
  | .evSetNamespace s, c => setNamespaceAttribute s c
  | .evSetSize s, c => setSizeAttribute s c
  | .evAddSymbol s, c => setSymbolsAttribute s c
  | .evAddFieldName s, c => textContainsFieldName s c
  | .evMarker m, c => setMarkerAttribute m c
  | .evAddNamedTypeRef s, c => addNamedType s c
  | .evSub f, c => runFrame f c

/-- Run a whole bracketed frame: `startType`, the body events, then
`stopType`. -/
def runFrame : BFrame → CompilerContext → Except String CompilerContext
  | .mk ops, c =>
      match runEvents ops (startType c) with
      | .error e => .error e
      | .ok c2 => stopType c2

/-- Run a list of build events left to right. -/
def runEvents : BEvents → CompilerContext → Except String CompilerContext
  | .nil, c => .ok c
  | .cons e rest, c =>
      match runEvent e c with
      | .error e => .error e
      | .ok c2 => runEvents rest c2
end

/-- The namespace texts a body pushes directly at its own frame level
(nested sub-frames manage their own pushes and pops). -/
def nsTexts : BEvents → List String
  | .nil => []
  | .cons (.evSetNamespace s) rest => s :: nsTexts rest
  | .cons _ rest => nsTexts rest

/-- The kind tag the body leaves in the frame, starting from `t0`:
`addType` and `addNamedTypeReference` overwrite it, nothing else touches
it. -/
def finalCtype : BEvents → Option AvroType → Option AvroType
  | .nil, t0 => t0
  | .cons (.evAddType t) rest, _ => finalCtype rest (some t)
  | .cons (.evAddNamedTypeRef _) rest, _ => finalCtype rest (some .tSymbolic)
  | .cons _ rest, t0 => finalCtype rest t0

/-- Whether a kind tag is one of the named compound kinds whose
`finishType` pops the namespace stack. -/
def isNamedCompound : Option AvroType → Bool
  | some .tRecord => true
  | some .tEnum => true
  | some .tFixed => true
  | _ => false

mutual
/-- Well-formedness of a build sequence, the discipline §4.4 requires of
the external parser: within one frame either no namespace is set, or
exactly one non-empty namespace is set and the frame defines a named
compound type (record, enum or fixed) — the only callers of
`setNamespace` in the grammar; and every nested frame is well-formed. -/
def wfFrame : BFrame → Bool
  | .mk ops =>
      (match nsTexts ops with
       | [] => true
       | [t] => decide (t ≠ "") && isNamedCompound (finalCtype ops none)
       | _ => false) && wfEvents ops

/-- Well-formedness of each nested frame inside a body. -/
def wfEvents : BEvents → Bool
  | .nil => true
  | .cons (.evSub f) rest => wfFrame f && wfEvents rest
  | .cons _ rest => wfEvents rest
end

/-- The discriminants of a union's branches, in order, as the validation
loop would compute them (propagating the first `name()` failure). -/
def discList : List Node → Except String (List String)
  | [] => .ok []
  | n :: rest =>
      match unionDiscriminant n with
      | .error e => .error e
      | .ok d =>
          match discList rest with
          | .error e => .error e
          | .ok ds => .ok (d :: ds)

/-- The name-to-position map a scope's `NameIndex` is expected to hold:
each name of the list paired with its declaration-order position
(starting at `k`). -/
def enumIdx : List String → Nat → List (String × Nat)
  | [], _ => []
  | n :: rest, i => (n, i) :: enumIdx rest (i + 1)

/-- The `NameIndex` invariant of one naming scope: the index holds
exactly the scope's names, each mapped to its declaration-order
position. -/
def SlotsInv (s : NamedSlots) : Prop := s.nameIndex = enumIdx s.leafNames 0

/-- A concrete well-formed build sequence: one fixed type
`{"type":"fixed", "namespace":"org.example", "name":"F", "size":"4"}`. -/
def fixedFrameEx : BFrame :=
  .mk (.cons (.evSetNamespace "org.example")
      (.cons (.evSetName "F")
      (.cons (.evSetSize "4")
      (.cons (.evAddType .tFixed) .nil))))

/-- The empty builder state. -/
def emptyCtx : CompilerContext := {}


/-! ## Theorems -/

/-- C2: resolving a Symbolic node whose weak reference locks returns the
exact target; a never-set (or expired) reference fails with the
"could not follow symbol" error; and resolving any non-Symbolic node
fails with the type-mismatch error. -/
theorem symbolic_resolution_spec (names : List String) (t n : Node)
    (h : n.type ≠ AvroType.tSymbolic) :
    resolveSymbol (.symbolic names (some t)) = .ok t
    ∧ resolveSymbol (.symbolic names none)
        = .error ("Could not follow symbol " ++ names.headD "")
    ∧ resolveSymbol n = .error "Only symbolic nodes may be resolved" := by
  refine ⟨rfl, rfl, ?_⟩
  cases n with
  | symbolic names actual => exact absurd rfl h
  | _ => rfl

/-- Witness for C2 at concrete nodes: a symbolic node pointing at the
`long` primitive resolves to it, an unset one fails, and resolving an
`int` primitive is a type misuse. -/
theorem symbolic_resolution_spec_witness :
    resolveSymbol (.symbolic ["x"] (some (.primitive .tLong)))
        = .ok (.primitive .tLong)
    ∧ resolveSymbol (.symbolic ["x"] none)
        = .error ("Could not follow symbol " ++ (["x"] : List String).headD "")
    ∧ resolveSymbol (.primitive .tInt)
        = .error "Only symbolic nodes may be resolved" :=
  symbolic_resolution_spec ["x"] (.primitive .tLong) (.primitive .tInt)
    (by intro h; exact absurd h (by decide))

/-- C5: both map constructions — default constructor followed by adding
the value type, and the value-first constructor — yield the same node
with exactly two children, child 0 the implicit primitive string key and
child 1 the value; and a map node validates true exactly when it has two
children. -/
theorem map_key_before_value (v : Node) :
    Node.doAddLeaf NodeMap.default v = .ok (.map [.primitive .tString, v])
    ∧ NodeMap.ofValues v = .map [.primitive .tString, v]
    ∧ Node.childCount (.map [.primitive .tString, v]) = 2
    ∧ (.map [.primitive .tString, v] : Node).leavesOf.get? 0
        = some (.primitive .tString)
    ∧ (.map [.primitive .tString, v] : Node).leavesOf.get? 1 = some v
    ∧ Node.isValid (.map [.primitive .tString, v]) = .ok true
    ∧ ∀ lv : List Node, Node.isValid (.map lv) = .ok true ↔ lv.length = 2 := by
  refine ⟨rfl, rfl, rfl, rfl, rfl, rfl, ?_⟩
  intro lv
  simp [Node.isValid]

/-- C6 counterexample: a Fixed node whose stored size is the negative
integer `-5` still validates true (`NodeFixed::isValid` checks only the
presence of one name and one size), and `setSizeAttribute` on the literal
`"-5"` parses it with `atol` and stores `-5` rather than rejecting it. -/
theorem fixed_negative_size_accepted_cex :
    Node.isValid (.fixed ["F"] [-5] ["ns"]) = .ok true
    ∧ atol "-5" = -5
    ∧ setSizeAttribute "-5"
        { stack := [{}], namespaceStack := [], root := none }
        = .ok { stack := [{ sizeAttribute := [-5] }], namespaceStack := [],
                root := none }
    ∧ atol "abc" = 0 := by
  refine ⟨rfl, by decide, rfl, by decide⟩

/-- C6 as amended: a Fixed node validates true exactly when it has one
name and one size, with no constraint on the sign of the size; and
`setSizeAttribute` stores `atol text` — whatever integer that conversion
produces — into the current frame unconditionally. -/
theorem fixed_validation_amended (nm : List String) (sz : List Int)
    (ns : List String) (text : String) (fr : CompilerNode)
    (st : List CompilerNode) (nsSt : List String) (r : Option Node) :
    Node.isValid (.fixed nm sz ns) = .ok (nm.length == 1 && sz.length == 1)
    ∧ setSizeAttribute text ⟨fr :: st, nsSt, r⟩
        = .ok ⟨{ fr with sizeAttribute := fr.sizeAttribute ++ [atol text] }
                 :: st, nsSt, r⟩ :=
  ⟨rfl, rfl⟩

/-- C7: evaluation at the failing input.  With `"com.example"` on the
namespace stack, `addNamedType "Node"` sets the frame's kind to Symbolic
but records the name `"Node"` verbatim — NOT the namespace-qualified
`"com.example.Node"` the spec (and the in-code comment) call for. -/
theorem addNamedType_records_unqualified_name :
    addNamedType "Node"
      { stack := [{}], namespaceStack := ["com.example"], root := none }
      = .ok { stack := [{ ctype := some .tSymbolic,
                          nameAttribute := ["Node"] }],
              namespaceStack := ["com.example"], root := none } := rfl

/-- C4 counterexample: validating a union that directly contains another
union does not return `false` — computing the inner union's discriminant
calls `name()` on a kind with no name attribute, so validation aborts
with the attribute-misuse error. -/
theorem union_in_union_errors_cex :
    Node.isValid (.union [.union [.primitive .tNull]])
      = .error "This type does not have attribute"
    ∧ Node.isValid (.union [.union [.primitive .tNull]]) ≠ .ok false := by
  refine ⟨rfl, ?_⟩
  intro h
  exact Except.noConfusion h

/-- The union validation loop returns `ok true` exactly when every branch
discriminant is computable, the discriminants are pairwise distinct, and
none of them is in the already-seen set. -/
theorem unionValidLoop_ok_true_iff (leaves : List Node) (seen : List String) :
    unionValidLoop leaves seen = .ok true ↔
      ∃ ds, discList leaves = .ok ds ∧ ds.Nodup ∧ ∀ d ∈ ds, d ∉ seen := by
  induction leaves generalizing seen with
  | nil => simp [unionValidLoop, discList]
  | cons n rest ih =>
      simp only [unionValidLoop, discList]
      cases hd : unionDiscriminant n with
      | error e =>
          dsimp only
          constructor
          · intro h; exact Except.noConfusion h
          · rintro ⟨ds, hds, -, -⟩; exact Except.noConfusion hds
      | ok d =>
          dsimp only
          cases hc : seen.contains d with
          | true =>
              rw [if_pos rfl]
              have hdc : d ∈ seen := by simpa using hc
              constructor
              · intro h
                have : (false : Bool) = true := Except.ok.inj h
                exact Bool.noConfusion this
              · rintro ⟨ds, hds, -, hall⟩
                cases hrest : discList rest with
                | error e => rw [hrest] at hds; exact Except.noConfusion hds
                | ok ds2 =>
                    rw [hrest] at hds
                    have hds2 := Except.ok.inj hds
                    subst hds2
                    exact absurd hdc (hall d (by simp))
          | false =>
              have hdc : d ∉ seen := by simpa using hc
              rw [if_neg Bool.false_ne_true]
              rw [ih (d :: seen)]
              constructor
              · rintro ⟨ds2, hds2, hnd2, hall2⟩
                refine ⟨d :: ds2, by rw [hds2], ?_, ?_⟩
                · rw [List.nodup_cons]
                  refine ⟨fun hmem => ?_, hnd2⟩
                  exact (hall2 d hmem) (by simp)
                · intro x hx
                  rcases List.mem_cons.mp hx with h | h
                  · subst h; exact hdc
                  · intro hxs
                    exact (hall2 x h) (by simp [hxs])
              · rintro ⟨ds, hds, hnd, hall⟩
                cases hrest : discList rest with
                | error e => rw [hrest] at hds; exact Except.noConfusion hds
                | ok ds2 =>
                    rw [hrest] at hds
                    have hds2 := Except.ok.inj hds
                    subst hds2
                    rw [List.nodup_cons] at hnd
                    refine ⟨ds2, rfl, hnd.2, ?_⟩
                    intro x hx
                    intro hmem
                    rcases List.mem_cons.mp hmem with h | h
                    · subst h; exact hnd.1 hx
                    · exact (hall x (by simp [hx])) h

/-- When the discriminant list of a union's branches is computed
successfully, each position holds exactly the discriminant of the branch
at that position. -/
theorem discList_get (leaves : List Node) (ds : List String)
    (h : discList leaves = .ok ds) :
    ds.length = leaves.length ∧
      ∀ i a, leaves.get? i = some a →
        ∃ d, unionDiscriminant a = .ok d ∧ ds.get? i = some d := by
  induction leaves generalizing ds with
  | nil =>
      simp only [discList] at h
      have := Except.ok.inj h
      subst this
      exact ⟨rfl, by intro i a ha; simp at ha⟩
  | cons n rest ih =>
      simp only [discList] at h
      cases hd : unionDiscriminant n with
      | error e => rw [hd] at h; exact Except.noConfusion h
      | ok d =>
          rw [hd] at h
          cases hrest : discList rest with
          | error e => rw [hrest] at h; exact Except.noConfusion h
          | ok ds2 =>
              rw [hrest] at h
              have hds := Except.ok.inj h
              subst hds
              obtain ⟨hlen, hget⟩ := ih ds2 hrest
              refine ⟨by simp [hlen], ?_⟩
              intro i a ha
              cases i with
              | zero =>
                  have : n = a := by simpa using ha
                  subst this
                  exact ⟨d, hd, rfl⟩
              | succ i =>
                  have ha2 : rest.get? i = some a := by simpa using ha
                  obtain ⟨d2, hd2, hget2⟩ := hget i a ha2
                  exact ⟨d2, hd2, by simpa using hget2⟩

/-- C3 (amended): a union validates true exactly when it has at least one
branch, every branch discriminant is computable, and no two discriminants
coincide — where the discriminant of a named/compound branch is the
branch's STORED name attribute (its simple name; the namespace is not
consulted); and the two concrete scenarios: `[null, string, int]`
validates true, `[string, string]` validates false. -/
theorem union_validates_iff_distinct_discriminants :
    (∀ leaves : List Node,
        Node.isValid (.union leaves) = .ok true ↔
          leaves ≠ [] ∧ ∃ ds, discList leaves = .ok ds ∧ ds.Nodup)
    ∧ (∀ (nm : List String) (lv : List Node) (lns ns : List String),
        unionDiscriminant (.record nm lv lns ns) = .ok (nm.headD ""))
    ∧ Node.isValid
        (.union [.primitive .tNull, .primitive .tString, .primitive .tInt])
        = .ok true
    ∧ Node.isValid (.union [.primitive .tString, .primitive .tString])
        = .ok false := by
    refine ⟨?_, fun nm lv lns ns => rfl, rfl, rfl⟩
    intro leaves
    simp only [Node.isValid]
    by_cases hlen : leaves.length ≥ 1
    · rw [if_pos hlen, unionValidLoop_ok_true_iff]
      have hne : leaves ≠ [] := by
        intro h; subst h; simp at hlen
      simp [hne]
    · rw [if_neg hlen]
      have : leaves = [] := by
        cases leaves with
        | nil => rfl
        | cons a l => exact absurd (by simp) hlen
      subst this
      constructor
      · intro h
        have : (false : Bool) = true := Except.ok.inj h
        exact Bool.noConfusion this
      · rintro ⟨h, -⟩; exact absurd rfl h

/-- C3 counterexample: the claim reads the discriminant of a
named/compound branch as its FULL name.  The code compares
`n->name()` — the stored simple name — so this union of two records
whose full names both compute to `"a.b.c"` (namespace `"a.b"` with name
`"c"`, and namespace `"a"` with name `"b.c"`) still validates true,
contradicting the claim's "no two branches have the same discriminant"
reading of full names. -/
theorem union_full_name_discriminant_cex :
    Node.isValid (.union [.record ["c"] [] [] ["a.b"],
                          .record ["b.c"] [] [] ["a"]]) = .ok true
    ∧ nodeFullname (.record ["c"] [] [] ["a.b"]) = .ok "a.b.c"
    ∧ nodeFullname (.record ["b.c"] [] [] ["a"]) = .ok "a.b.c"
    ∧ unionDiscriminant (.record ["c"] [] [] ["a.b"]) = .ok "c"
    ∧ unionDiscriminant (.record ["b.c"] [] [] ["a"]) = .ok "b.c" := by
    exact ⟨rfl, rfl, rfl, rfl, rfl⟩

/-- The discriminant of a branch whose type tag is the union tag is the
`name()` misuse error: a union has no name attribute. -/
theorem unionDiscriminant_of_union (u : Node) (hu : u.type = .tUnion) :
    unionDiscriminant u = .error "This type does not have attribute" := by
  unfold unionDiscriminant
  rw [hu]
  cases u with
  | primitive t => rfl
  | union lv => rfl
  | _ => simp [Node.type] at hu

/-- The union validation loop never returns `ok true` when some branch
has the union type tag: reaching that branch makes the discriminant
computation fail, and failing earlier is not `ok true` either. -/
theorem unionValidLoop_ne_true_of_union_mem (leaves : List Node)
    (seen : List String) (u : Node) (hmem : u ∈ leaves)
    (hu : u.type = .tUnion) : unionValidLoop leaves seen ≠ .ok true := by
  induction leaves generalizing seen with
  | nil => simp at hmem
  | cons n rest ih =>
      simp only [unionValidLoop]
      rcases List.mem_cons.mp hmem with h | h
      · subst h
        rw [unionDiscriminant_of_union u hu]
        exact fun hcontra => Except.noConfusion hcontra
      · cases hd : unionDiscriminant n with
        | error e => exact fun hcontra => Except.noConfusion hcontra
        | ok d =>
            dsimp only
            cases hc : seen.contains d with
            | true =>
                rw [if_pos rfl]
                intro hcontra
                have : (false : Bool) = true := Except.ok.inj hcontra
                exact Bool.noConfusion this
            | false =>
                rw [if_neg Bool.false_ne_true]
                exact ih (d :: seen) h

/-- C4 (amended): a union directly containing another union never
validates true — but not by returning `false`: computing the inner
union's discriminant calls `name()` on a nameless kind, so validation
aborts with an error. -/
theorem union_in_union_never_validates (leaves : List Node) (u : Node)
    (hmem : u ∈ leaves) (hu : u.type = .tUnion) :
    Node.isValid (.union leaves) ≠ .ok true := by
  have hlen : leaves.length ≥ 1 :=
    List.length_pos.mpr (List.ne_nil_of_mem hmem)
  simp only [Node.isValid, if_pos hlen]
  exact unionValidLoop_ne_true_of_union_mem leaves [] u hmem hu

/-- Witness for C4's amended theorem at a concrete union-of-union. -/
theorem union_in_union_never_validates_witness :
    Node.isValid (.union [.union [.primitive .tNull]]) ≠ .ok true :=
  union_in_union_never_validates [.union [.primitive .tNull]]
    (.union [.primitive .tNull]) (by simp) rfl

/-- A branch of array type has discriminant `"array"` regardless of its
item type. -/
theorem unionDiscriminant_of_array (a : Node) (h : a.type = .tArray) :
    unionDiscriminant a = .ok "array" := by
  unfold unionDiscriminant
  rw [h]

/-- A branch of map type has discriminant `"map"` regardless of its value
type. -/
theorem unionDiscriminant_of_map (a : Node) (h : a.type = .tMap) :
    unionDiscriminant a = .ok "map" := by
  unfold unionDiscriminant
  rw [h]

/-- C10: union validation assigns every Array branch the constant
discriminant `"array"` and every Map branch the constant `"map"` — never
a name derived from the element type — so a union holding two array
branches, or two map branches, at distinct positions never validates
true, even when the item/value types differ. -/
theorem union_duplicate_array_or_map_branches (leaves : List Node)
    (i j : Nat) (a b : Node) (hij : i < j)
    (hga : leaves.get? i = some a) (hgb : leaves.get? j = some b)
    (hab : (a.type = .tArray ∧ b.type = .tArray)
         ∨ (a.type = .tMap ∧ b.type = .tMap)) :
    (∀ lv : List Node, unionDiscriminant (.array lv) = .ok "array")
    ∧ (∀ lv : List Node, unionDiscriminant (.map lv) = .ok "map")
    ∧ Node.isValid (.union leaves) ≠ .ok true := by
  refine ⟨fun lv => rfl, fun lv => rfl, ?_⟩
  intro hvalid
  have hmem := List.get?_mem hgb
  have hlen : leaves.length ≥ 1 :=
    List.length_pos.mpr (List.ne_nil_of_mem hmem)
  simp only [Node.isValid, if_pos hlen] at hvalid
  rw [unionValidLoop_ok_true_iff] at hvalid
  obtain ⟨ds, hds, hnd, -⟩ := hvalid
  obtain ⟨hlen2, hget⟩ := discList_get leaves ds hds
  obtain ⟨da, hda, hdsa⟩ := hget i a hga
  obtain ⟨db, hdb, hdsb⟩ := hget j b hgb
  have hsame : da = db := by
    rcases hab with ⟨ha, hb⟩ | ⟨ha, hb⟩
    · rw [unionDiscriminant_of_array a ha] at hda
      rw [unionDiscriminant_of_array b hb] at hdb
      rw [← Except.ok.inj hda, ← Except.ok.inj hdb]
    · rw [unionDiscriminant_of_map a ha] at hda
      rw [unionDiscriminant_of_map b hb] at hdb
      rw [← Except.ok.inj hda, ← Except.ok.inj hdb]
  have hi : i < ds.length := by
    rw [hlen2]
    have hj : j < leaves.length := (List.get?_eq_some.mp hgb).1
    omega
  have heq : ds.get? i = ds.get? j := by
    rw [hdsa, hdsb, hsame]
  have : i = j := by
    rw [List.get?_eq_getElem?, List.get?_eq_getElem?] at heq
    exact List.getElem?_inj hi hnd heq
  omega

/-- Witness for C10 at a concrete union of an array of ints and an array
of longs: distinct item types, same discriminant, never valid. -/
theorem union_duplicate_array_or_map_branches_witness :
    (0 : Nat) < 1
    ∧ Node.isValid (.union [.array [.primitive .tInt],
                            .array [.primitive .tLong]]) ≠ .ok true :=
  ⟨Nat.zero_lt_one,
   (union_duplicate_array_or_map_branches
      [.array [.primitive .tInt], .array [.primitive .tLong]] 0 1
      (.array [.primitive .tInt]) (.array [.primitive .tLong])
      Nat.zero_lt_one rfl rfl (Or.inl ⟨rfl, rfl⟩)).2.2⟩

/-- `setLeafToSymbolic` on the leaf list: with a child present at the
index and both names readable, a name mismatch is the
naming error, and a match replaces exactly that child slot with the
symbolic node. -/
theorem setLeafToSymbolicList_spec (leaves : List Node) (i : Nat)
    (t c : Node) (cn fn : String) (hc : leaves.get? i = some c)
    (hcn : c.name = .ok cn) (hfn : nodeFullname t = .ok fn) :
    (cn ≠ fn → setLeafToSymbolicList leaves i t
        = .error "Symbolic name does not match the name of the schema it references")
    ∧ (cn = fn → setLeafToSymbolicList leaves i t
        = .ok (leaves.set i (.symbolic [fn] (some t)))) := by
  unfold setLeafToSymbolicList
  rw [hc]
  dsimp only
  rw [hfn]
  dsimp only
  rw [hcn]
  dsimp only
  constructor
  · intro hne
    rw [if_pos hne]
  · intro heq
    subst heq
    rw [if_neg (by simp)]

/-- C1: for a node whose kind has children, replacing the child at an
index by a symbolic reference to a target fails with the name-mismatch
error when the existing child's name differs from the target's full name
(namespace + "." + name when the namespace is non-empty, else just the
name); when they match, the child slot is swapped for a Symbolic node
named by that full name and holding a weak reference to the target, and
resolving that new child returns the target. -/
theorem replaceChildWithSymbolicReference_spec (n : Node) (i : Nat)
    (t c : Node) (cn fn : String) (hleaf : hasLeafAttr n.type = true)
    (hc : n.leavesOf.get? i = some c) (hcn : c.name = .ok cn)
    (hfn : nodeFullname t = .ok fn) :
    (cn ≠ fn → n.setLeafToSymbolic i t
        = .error "Symbolic name does not match the name of the schema it references")
    ∧ (cn = fn → n.setLeafToSymbolic i t
        = .ok (n.withLeaves (n.leavesOf.set i (.symbolic [fn] (some t))))
        ∧ resolveSymbol (.symbolic [fn] (some t)) = .ok t) := by
  have hspec := setLeafToSymbolicList_spec n.leavesOf i t c cn fn hc hcn hfn
  unfold Node.setLeafToSymbolic
  rw [if_pos hleaf]
  constructor
  · intro hne
    rw [hspec.1 hne]
  · intro heq
    refine ⟨?_, rfl⟩
    rw [hspec.2 heq]

/-- Witness for C1: a record whose only field is the forward reference
`"a.T"` gets backpatched with the fixed type `T` in namespace `a`; the
slot becomes a symbolic node and resolves to the target. -/
theorem replaceChildWithSymbolicReference_spec_witness :
    Node.setLeafToSymbolic
        (.record ["R"] [.symbolic ["a.T"] none] ["f"] [""]) 0
        (.fixed ["T"] [4] ["a"])
      = .ok (.record ["R"] [.symbolic ["a.T"] (some (.fixed ["T"] [4] ["a"]))]
               ["f"] [""])
    ∧ resolveSymbol (.symbolic ["a.T"] (some (.fixed ["T"] [4] ["a"])))
      = .ok (.fixed ["T"] [4] ["a"]) :=
  (replaceChildWithSymbolicReference_spec
      (.record ["R"] [.symbolic ["a.T"] none] ["f"] [""]) 0
      (.fixed ["T"] [4] ["a"]) (.symbolic ["a.T"] none) "a.T" "a.T"
      rfl rfl rfl rfl).2 rfl

/-- Looking a name up in a concatenated index searches the left part
first. -/
theorem nameIndexLookup_append (name : String) (a b : List (String × Nat)) :
    nameIndexLookup name (a ++ b)
      = match nameIndexLookup name a with
        | some v => some v
        | none => nameIndexLookup name b := by
  induction a with
  | nil => simp [nameIndexLookup]
  | cons p rest ih =>
      obtain ⟨k, v⟩ := p
      by_cases hk : k = name
      · simp [nameIndexLookup, hk]
      · simp [nameIndexLookup, hk, ih]

/-- If the constructor's duplicate-check loop succeeds, none of the
remaining names is already present in the accumulated index. -/
theorem buildNameIndex_lookup_none (l : List String) (i : Nat)
    (acc r : List (String × Nat)) (h : buildNameIndex l i acc = .ok r) :
    ∀ m ∈ l, nameIndexLookup m acc = none := by
  induction l generalizing i acc with
  | nil => intro m hm; simp at hm
  | cons n rest ih =>
      simp only [buildNameIndex] at h
      cases hadd : nameIndexAdd n i acc with
      | none => rw [hadd] at h; exact Except.noConfusion h
      | some acc2 =>
          rw [hadd] at h
          unfold nameIndexAdd at hadd
          cases hl : nameIndexLookup n acc with
          | some v => rw [hl] at hadd; exact Option.noConfusion hadd
          | none =>
              rw [hl] at hadd
              have hacc2 : acc ++ [(n, i)] = acc2 := Option.some.inj hadd
              intro m hm
              rcases List.mem_cons.mp hm with hmn | hmr
              · subst hmn; exact hl
              · have hnone := ih (i + 1) acc2 h m hmr
                rw [← hacc2, nameIndexLookup_append] at hnone
                cases hma : nameIndexLookup m acc with
                | none => rfl
                | some v => rw [hma] at hnone; exact Option.noConfusion hnone

/-- A successful constructor duplicate-check loop certifies that the
names were pairwise distinct. -/
theorem buildNameIndex_nodup (l : List String) (i : Nat)
    (acc r : List (String × Nat)) (h : buildNameIndex l i acc = .ok r) :
    l.Nodup := by
  induction l generalizing i acc with
  | nil => exact List.nodup_nil
  | cons n rest ih =>
      simp only [buildNameIndex] at h
      cases hadd : nameIndexAdd n i acc with
      | none => rw [hadd] at h; exact Except.noConfusion h
      | some acc2 =>
          rw [hadd] at h
          rw [List.nodup_cons]
          refine ⟨?_, ih (i + 1) acc2 h⟩
          intro hmem
          have hnone := buildNameIndex_lookup_none rest (i + 1) acc2 r h n hmem
          unfold nameIndexAdd at hadd
          cases hl : nameIndexLookup n acc with
          | some v => rw [hl] at hadd; exact Option.noConfusion hadd
          | none =>
              rw [hl] at hadd
              have hacc2 : acc ++ [(n, i)] = acc2 := Option.some.inj hadd
              rw [← hacc2, nameIndexLookup_append, hl] at hnone
              simp [nameIndexLookup] at hnone

/-- Appending one name to a scope extends its expected index by exactly
one entry at the next position. -/
theorem enumIdx_append (l : List String) (n : String) (k : Nat) :
    enumIdx (l ++ [n]) k = enumIdx l k ++ [(n, k + l.length)] := by
  induction l generalizing k with
  | nil => simp [enumIdx]
  | cons a rest ih =>
      have harith : k + 1 + rest.length = k + (rest.length + 1) := by omega
      simp only [List.cons_append, enumIdx, List.length_cons]
      rw [show rest.append [n] = rest ++ [n] from rfl, ih (k + 1), harith]

/-- A hit in the expected index of a scope names exactly the position at
which the name was declared. -/
theorem enumIdx_lookup (name : String) (l : List String) (k i : Nat)
    (h : nameIndexLookup name (enumIdx l k) = some i) :
    ∃ j, i = k + j ∧ l.get? j = some name := by
  induction l generalizing k with
  | nil => simp [enumIdx, nameIndexLookup] at h
  | cons a rest ih =>
      simp only [enumIdx, nameIndexLookup] at h
      by_cases ha : a = name
      · rw [if_pos ha] at h
        have hik : k = i := Option.some.inj h
        exact ⟨0, by omega, by simp [ha]⟩
      · rw [if_neg ha] at h
        obtain ⟨j, hj, hget⟩ := ih (k + 1) h
        exact ⟨j + 1, by omega, by simpa using hget⟩

/-- C8: a record node validates true only with field count equal to
field-name count; a record constructed through `NodeRecord`'s
duplicate-checking constructor has pairwise-distinct field names;
`doAddName` refuses a name already present in the scope's index as a
hard failure (no insertion, no overwrite — the state is returned only on
success), with the index still holding the name's original
declaration-order position; a fresh name is appended at the next
position; and the index invariant is preserved by every successful
insertion. -/
theorem record_field_names_unique :
    (∀ (nm : List String) (lv : List Node) (lns ns : List String),
        Node.isValid (.record nm lv lns ns)
          = .ok (nm.length == 1 && lv.length == lns.length))
    ∧ (∀ (nm : List String) (fls : List Node) (fns ns : List String)
          (n : Node), NodeRecord.make nm fls fns ns = .ok n → fns.Nodup)
    ∧ (∀ (s : NamedSlots) (name : String) (i : Nat), SlotsInv s →
          nameIndexLookup name s.nameIndex = some i →
            doAddName name s = .error ("Cannot add duplicate name: " ++ name)
            ∧ s.leafNames.get? i = some name)
    ∧ (∀ (s : NamedSlots) (name : String), SlotsInv s →
          nameIndexLookup name s.nameIndex = none →
            doAddName name s
              = .ok ⟨s.leafNames ++ [name],
                     s.nameIndex ++ [(name, s.leafNames.length)]⟩)
    ∧ (∀ (s s2 : NamedSlots) (name : String), SlotsInv s →
          doAddName name s = .ok s2 → SlotsInv s2) := by
  refine ⟨fun nm lv lns ns => rfl, ?_, ?_, ?_, ?_⟩
  · intro nm fls fns ns n h
    unfold NodeRecord.make at h
    cases hb : buildNameIndex fns 0 [] with
    | error e => rw [hb] at h; exact Except.noConfusion h
    | ok r => exact buildNameIndex_nodup fns 0 [] r hb
  · intro s name i hinv hlk
    unfold doAddName nameIndexAdd
    rw [hlk]
    refine ⟨rfl, ?_⟩
    rw [hinv] at hlk
    obtain ⟨j, hj, hget⟩ := enumIdx_lookup name s.leafNames 0 i hlk
    have : i = j := by omega
    subst this
    exact hget
  · intro s name hinv hlk
    unfold doAddName nameIndexAdd
    rw [hlk]
  · intro s s2 name hinv hadd
    unfold doAddName nameIndexAdd at hadd
    cases hlk : nameIndexLookup name s.nameIndex with
    | some v => rw [hlk] at hadd; exact Except.noConfusion hadd
    | none =>
        rw [hlk] at hadd
        have hs2 := Except.ok.inj hadd
        subst hs2
        unfold SlotsInv at hinv ⊢
        simp only []
        rw [enumIdx_append, hinv]
        simp

/-- Witness for C8 at a concrete scope holding `"a"` at position 0:
re-adding `"a"` fails and keeps its position, adding `"b"` appends at
position 1, the constructor accepts `["f1"]`, and the invariant
survives the insertion. -/
theorem record_field_names_unique_witness :
    (doAddName "a" ⟨["a"], [("a", 0)]⟩
        = .error ("Cannot add duplicate name: " ++ "a")
      ∧ (["a"] : List String).get? 0 = some "a")
    ∧ doAddName "b" ⟨["a"], [("a", 0)]⟩ = .ok ⟨["a", "b"], [("a", 0), ("b", 1)]⟩
    ∧ (["f1"] : List String).Nodup
    ∧ SlotsInv ⟨["a", "b"], [("a", 0), ("b", 1)]⟩ :=
  ⟨record_field_names_unique.2.2.1 ⟨["a"], [("a", 0)]⟩ "a" 0 rfl rfl,
   record_field_names_unique.2.2.2.1 ⟨["a"], [("a", 0)]⟩ "b" rfl rfl,
   record_field_names_unique.2.1 ["R"] [] ["f1"] [""]
     (.record ["R"] [] ["f1"] [""]) rfl,
   record_field_names_unique.2.2.2.2 ⟨["a"], [("a", 0)]⟩
     ⟨["a", "b"], [("a", 0), ("b", 1)]⟩ "b" rfl
     (record_field_names_unique.2.2.2.1 ⟨["a"], [("a", 0)]⟩ "b" rfl rfl)⟩

/-- The validation gate passes a node through unchanged. -/
theorem validateBuiltNode_ok (m node : Node)
    (h : validateBuiltNode m = .ok node) : node = m := by
  unfold validateBuiltNode at h
  cases hv : m.isValid with
  | error e => rw [hv] at h; exact Except.noConfusion h
  | ok b =>
      rw [hv] at h
      cases b with
      | false => exact Except.noConfusion h
      | true => exact (Except.ok.inj h).symm

/-- Shape of the node built from a finished frame: a record/enum/fixed
result carries exactly the frame's attribute slots (in particular its
namespace slot), and a frame whose kind tag is record/enum/fixed yields a
node of that type. -/
theorem nodeFromCompilerNode_shape (cn : CompilerNode) (node : Node)
    (h : nodeFromCompilerNode cn = .ok node) :
    (node.type = .tRecord →
        node = .record cn.nameAttribute cn.children cn.fieldsNamesAttribute
                 cn.namespaceAttribute)
    ∧ (node.type = .tEnum →
        node = .enum cn.nameAttribute cn.symbolsAttribute
                 cn.namespaceAttribute)
    ∧ (node.type = .tFixed →
        node = .fixed cn.nameAttribute cn.sizeAttribute
                 cn.namespaceAttribute)
    ∧ (cn.ctype = some .tRecord → node.type = .tRecord)
    ∧ (cn.ctype = some .tEnum → node.type = .tEnum)
    ∧ (cn.ctype = some .tFixed → node.type = .tFixed) := by
  unfold nodeFromCompilerNode at h
  cases hct : cn.ctype with
  | none =>
      rw [hct] at h
      exact Except.noConfusion h
  | some t =>
      rw [hct] at h
      cases t with
      | tRecord =>
          dsimp only at h
          cases hmk : NodeRecord.make cn.nameAttribute cn.children
              cn.fieldsNamesAttribute cn.namespaceAttribute with
          | error e => rw [hmk] at h; exact Except.noConfusion h
          | ok m =>
              rw [hmk] at h
              have hm := validateBuiltNode_ok m node h
              unfold NodeRecord.make at hmk
              cases hb : buildNameIndex cn.fieldsNamesAttribute 0 [] with
              | error e => rw [hb] at hmk; exact Except.noConfusion hmk
              | ok idx =>
                  rw [hb] at hmk
                  have hm2 := Except.ok.inj hmk
                  rw [hm, ← hm2]
                  refine ⟨fun _ => rfl, ?_, ?_, fun _ => rfl, ?_, ?_⟩
                  all_goals intro hx
                  all_goals simp [Node.type, hct] at hx
      | tEnum =>
          dsimp only at h
          cases hmk : NodeEnum.make cn.nameAttribute cn.symbolsAttribute
              cn.namespaceAttribute with
          | error e => rw [hmk] at h; exact Except.noConfusion h
          | ok m =>
              rw [hmk] at h
              have hm := validateBuiltNode_ok m node h
              unfold NodeEnum.make at hmk
              cases hb : buildNameIndex cn.symbolsAttribute 0 [] with
              | error e => rw [hb] at hmk; exact Except.noConfusion hmk
              | ok idx =>
                  rw [hb] at hmk
                  have hm2 := Except.ok.inj hmk
                  rw [hm, ← hm2]
                  refine ⟨?_, fun _ => rfl, ?_, ?_, fun _ => rfl, ?_⟩
                  all_goals intro hx
                  all_goals simp [Node.type, hct] at hx
      | tFixed =>
          dsimp only at h
          have hm := validateBuiltNode_ok _ node h
          rw [hm]
          refine ⟨?_, ?_, fun _ => rfl, ?_, ?_, fun _ => rfl⟩
          all_goals intro hx
          all_goals simp [Node.type, hct] at hx
      | tArray =>
          dsimp only at h
          have hm := validateBuiltNode_ok _ node h
          rw [hm]
          refine ⟨?_, ?_, ?_, ?_, ?_, ?_⟩
          all_goals intro hx
          all_goals simp [Node.type, hct] at hx
      | tMap =>
          dsimp only at h
          cases hch : cn.children with
          | nil => rw [hch] at h; exact Except.noConfusion h
          | cons v vrest =>
              cases vrest with
              | nil =>
                  rw [hch] at h
                  dsimp only at h
                  have hm := validateBuiltNode_ok _ node h
                  rw [hm]
                  refine ⟨?_, ?_, ?_, ?_, ?_, ?_⟩
                  all_goals intro hx
                  all_goals simp [NodeMap.ofValues, listSwapFirstTwo,
                    Node.type, hct] at hx
              | cons w wrest =>
                  rw [hch] at h
                  exact Except.noConfusion h
      | tUnion =>
          dsimp only at h
          have hm := validateBuiltNode_ok _ node h
          rw [hm]
          refine ⟨?_, ?_, ?_, ?_, ?_, ?_⟩
          all_goals intro hx
          all_goals simp [Node.type, hct] at hx
      | tSymbolic =>
          dsimp only at h
          have hm := validateBuiltNode_ok _ node h
          rw [hm]
          refine ⟨?_, ?_, ?_, ?_, ?_, ?_⟩
          all_goals intro hx
          all_goals simp [Node.type, hct] at hx
      | _ =>
          dsimp only at h
          have hm := validateBuiltNode_ok _ node h
          rw [hm]
          refine ⟨?_, ?_, ?_, ?_, ?_, ?_⟩
          all_goals intro hx
          all_goals simp [Node.type, hct] at hx

/-- `stopType` propagates a node-construction failure of its top
frame. -/
theorem stopType_error (fr2 : CompilerNode) (st : List CompilerNode)
    (nsSt : List String) (r : Option Node) (e : String)
    (hnode : nodeFromCompilerNode fr2 = .error e) :
    stopType ⟨fr2 :: st, nsSt, r⟩ = .error e := by
  simp only [stopType]
  rw [hnode]

/-- `stopType` on a frame that set no namespace: whatever the node's
kind, the namespace stack is left untouched and the node is attached. -/
theorem stopType_nopop (fr2 : CompilerNode) (st : List CompilerNode)
    (nsSt : List String) (r : Option Node) (node : Node)
    (hnode : nodeFromCompilerNode fr2 = .ok node)
    (hns : fr2.namespaceAttribute = []) :
    stopType ⟨fr2 :: st, nsSt, r⟩ = .ok (addToContext node ⟨st, nsSt, r⟩) := by
  have hshape := nodeFromCompilerNode_shape fr2 node hnode
  simp only [stopType]
  rw [hnode]
  dsimp only
  by_cases hcomp : node.type = .tRecord ∨ node.type = .tFixed
      ∨ node.type = .tEnum
  · rw [if_pos hcomp]
    have hgns : node.getNamespace = .ok "" := by
      rcases hcomp with h1 | h2 | h3
      · rw [hshape.1 h1]; simp [Node.getNamespace, hns]
      · rw [hshape.2.2.1 h2]; simp [Node.getNamespace, hns]
      · rw [hshape.2.1 h3]; simp [Node.getNamespace, hns]
    rw [hgns]
    dsimp only
    rw [if_neg (fun hcontra => hcontra rfl)]
  · rw [if_neg hcomp]

/-- `stopType` on a frame that set the single non-empty namespace `t` and
whose kind tag is a named compound kind: the node is attached and exactly
the entry `t` is popped off the namespace stack. -/
theorem stopType_pop (fr2 : CompilerNode) (st : List CompilerNode)
    (t : String) (nsSt : List String) (r : Option Node) (node : Node)
    (hnode : nodeFromCompilerNode fr2 = .ok node)
    (hns : fr2.namespaceAttribute = [t]) (htne : t ≠ "")
    (hcomp : isNamedCompound fr2.ctype = true) :
    stopType ⟨fr2 :: st, t :: nsSt, r⟩
      = .ok (addToContext node ⟨st, nsSt, r⟩) := by
  have hshape := nodeFromCompilerNode_shape fr2 node hnode
  cases hct : fr2.ctype with
  | none => rw [hct] at hcomp; simp [isNamedCompound] at hcomp
  | some tt =>
      rw [hct] at hcomp
      cases tt with
      | tRecord =>
          have htype := hshape.2.2.2.1 hct
          have hnodeq := hshape.1 htype
          simp only [stopType]
          rw [hnode]
          dsimp only
          rw [if_pos (Or.inl htype), hnodeq]
          dsimp only [Node.getNamespace]
          rw [hns]
          try dsimp only
          rw [if_pos (by simpa using htne)]
      | tFixed =>
          have htype := hshape.2.2.2.2.2 hct
          have hnodeq := hshape.2.2.1 htype
          simp only [stopType]
          rw [hnode]
          dsimp only
          rw [if_pos (Or.inr (Or.inl htype)), hnodeq]
          dsimp only [Node.getNamespace]
          rw [hns]
          try dsimp only
          rw [if_pos (by simpa using htne)]
      | tEnum =>
          have htype := hshape.2.2.2.2.1 hct
          have hnodeq := hshape.2.1 htype
          simp only [stopType]
          rw [hnode]
          dsimp only
          rw [if_pos (Or.inr (Or.inr htype)), hnodeq]
          dsimp only [Node.getNamespace]
          rw [hns]
          try dsimp only
          rw [if_pos (by simpa using htne)]
      | _ => simp [isNamedCompound] at hcomp

mutual
/-- Running a body of build events on a context whose top frame is `fr`
leaves the rest of the frame stack untouched, pushes exactly the body's
own namespace texts onto the namespace stack (nested frames are
net-zero), and leaves the top frame with those texts appended to its
namespace slot and its kind tag rewritten by the body's type events. -/
theorem runEvents_spec : ∀ (ops : BEvents) (fr : CompilerNode)
    (rest : List CompilerNode) (nsSt : List String) (r : Option Node)
    (c2 : CompilerContext), wfEvents ops = true →
    runEvents ops ⟨fr :: rest, nsSt, r⟩ = .ok c2 →
    ∃ fr2, c2 = ⟨fr2 :: rest, (nsTexts ops).reverse ++ nsSt, r⟩
      ∧ fr2.namespaceAttribute = fr.namespaceAttribute ++ nsTexts ops
      ∧ fr2.ctype = finalCtype ops fr.ctype
  | .nil, fr, rest, nsSt, r, c2, hwf, hrun => by
      simp only [runEvents] at hrun
      have hc := Except.ok.inj hrun
      exact ⟨fr, hc.symm, by simp [nsTexts], rfl⟩
  | .cons e rest', fr, rest, nsSt, r, c2, hwf, hrun => by
      cases e with
      | evAddType t =>
          simp only [runEvents] at hrun
          dsimp only [runEvent, addType, withTopFrame] at hrun
          obtain ⟨fr2, hc2, hns, hct⟩ :=
            runEvents_spec rest' { fr with ctype := some t } rest nsSt r c2
              hwf hrun
          exact ⟨fr2, hc2, hns, hct⟩
      | evSetName s =>
          simp only [runEvents] at hrun
          dsimp only [runEvent, setNameAttribute, withTopFrame] at hrun
          obtain ⟨fr2, hc2, hns, hct⟩ :=
            runEvents_spec rest'
              { fr with nameAttribute := fr.nameAttribute ++ [s] }
              rest nsSt r c2 hwf hrun
          exact ⟨fr2, hc2, hns, hct⟩
      | evSetNamespace s =>
          simp only [runEvents] at hrun
          dsimp only [runEvent, setNamespaceAttribute] at hrun
          obtain ⟨fr2, hc2, hns, hct⟩ :=
            runEvents_spec rest'
              { fr with namespaceAttribute := fr.namespaceAttribute ++ [s] }
              rest (s :: nsSt) r c2 hwf hrun
          refine ⟨fr2, ?_, ?_, hct⟩
          · rw [hc2]
            simp [nsTexts]
          · rw [hns]
            simp [nsTexts]
      | evSetSize s =>
          simp only [runEvents] at hrun
          dsimp only [runEvent, setSizeAttribute, withTopFrame] at hrun
          obtain ⟨fr2, hc2, hns, hct⟩ :=
            runEvents_spec rest'
              { fr with sizeAttribute := fr.sizeAttribute ++ [atol s] }
              rest nsSt r c2 hwf hrun
          exact ⟨fr2, hc2, hns, hct⟩
      | evAddSymbol s =>
          simp only [runEvents] at hrun
          dsimp only [runEvent, setSymbolsAttribute, withTopFrame] at hrun
          obtain ⟨fr2, hc2, hns, hct⟩ :=
            runEvents_spec rest'
              { fr with symbolsAttribute := fr.symbolsAttribute ++ [s] }
              rest nsSt r c2 hwf hrun
          exact ⟨fr2, hc2, hns, hct⟩
      | evAddFieldName s =>
          simp only [runEvents] at hrun
          dsimp only [runEvent, textContainsFieldName, withTopFrame] at hrun
          obtain ⟨fr2, hc2, hns, hct⟩ :=
            runEvents_spec rest'
              { fr with fieldsNamesAttribute := fr.fieldsNamesAttribute ++ [s] }
              rest nsSt r c2 hwf hrun
          exact ⟨fr2, hc2, hns, hct⟩
      | evMarker m =>
          simp only [runEvents] at hrun
          dsimp only [runEvent, setMarkerAttribute, withTopFrame] at hrun
          obtain ⟨fr2, hc2, hns, hct⟩ :=
            runEvents_spec rest' { fr with attributeType := some m }
              rest nsSt r c2 hwf hrun
          exact ⟨fr2, hc2, hns, hct⟩
      | evAddNamedTypeRef s =>
          simp only [runEvents] at hrun
          dsimp only [runEvent, addNamedType, withTopFrame] at hrun
          obtain ⟨fr2, hc2, hns, hct⟩ :=
            runEvents_spec rest'
              { fr with ctype := some .tSymbolic,
                        nameAttribute := fr.nameAttribute ++ [s] }
              rest nsSt r c2 hwf hrun
          exact ⟨fr2, hc2, hns, hct⟩
      | evSub f =>
          simp only [runEvents] at hrun
          dsimp only [runEvent] at hrun
          cases hsub : runFrame f ⟨fr :: rest, nsSt, r⟩ with
          | error e =>
              rw [hsub] at hrun
              exact Except.noConfusion hrun
          | ok c1 =>
              rw [hsub] at hrun
              dsimp only at hrun
              simp only [wfEvents] at hwf
              rw [Bool.and_eq_true] at hwf
              have hwff := hwf.1
              have hwfr := hwf.2
              obtain ⟨node, hc1⟩ :=
                runFrame_spec f (fr :: rest) nsSt r c1 hwff hsub
              rw [hc1] at hrun
              dsimp only [addToContext] at hrun
              obtain ⟨fr2, hc2, hns, hct⟩ :=
                runEvents_spec rest'
                  { fr with children := fr.children ++ [node] }
                  rest nsSt r c2 hwfr hrun
              exact ⟨fr2, hc2, hns, hct⟩

/-- Running one well-formed bracketed frame attaches one finished node to
the surrounding context and restores the namespace stack. -/
theorem runFrame_spec : ∀ (f : BFrame) (st : List CompilerNode)
    (nsSt : List String) (r : Option Node) (c2 : CompilerContext),
    wfFrame f = true → runFrame f ⟨st, nsSt, r⟩ = .ok c2 →
    ∃ node, c2 = addToContext node ⟨st, nsSt, r⟩
  | .mk ops, st, nsSt, r, c2, hwf, hrun => by
      simp only [runFrame] at hrun
      cases hre : runEvents ops (startType ⟨st, nsSt, r⟩) with
      | error e =>
          rw [hre] at hrun
          exact Except.noConfusion hrun
      | ok c1 =>
          rw [hre] at hrun
          have hstop : stopType c1 = .ok c2 := hrun
          simp only [wfFrame] at hwf
          rw [Bool.and_eq_true] at hwf
          have hwfns := hwf.1
          have hwfops := hwf.2
          have hre2 : runEvents ops ⟨({} : CompilerNode) :: st, nsSt, r⟩
              = .ok c1 := hre
          obtain ⟨fr2, hc1, hns, hct⟩ :=
            runEvents_spec ops {} st nsSt r c1 hwfops hre2
          subst hc1
          have hns2 : fr2.namespaceAttribute = nsTexts ops := by
            simpa using hns
          cases hnt : nsTexts ops with
          | nil =>
              rw [hnt] at hns2
              rw [hnt] at hstop
              cases hnode : nodeFromCompilerNode fr2 with
              | error e =>
                  rw [stopType_error fr2 st (([] : List String).reverse ++ nsSt)
                      r e hnode] at hstop
                  exact Except.noConfusion hstop
              | ok node =>
                  rw [stopType_nopop fr2 st (([] : List String).reverse ++ nsSt)
                      r node hnode hns2] at hstop
                  exact ⟨node, (Except.ok.inj hstop).symm⟩
          | cons t ts =>
              cases ts with
              | nil =>
                  rw [hnt] at hns2
                  rw [hnt] at hstop
                  rw [hnt] at hwfns
                  dsimp only at hwfns
                  rw [Bool.and_eq_true] at hwfns
                  have htne : t ≠ "" := by simpa using hwfns.1
                  have hcompound : isNamedCompound (finalCtype ops none)
                      = true := hwfns.2
                  have hcomp2 : isNamedCompound fr2.ctype = true := by
                    rw [hct]
                    exact hcompound
                  have hconv : (([t] : List String).reverse ++ nsSt)
                      = t :: nsSt := by simp
                  rw [hconv] at hstop
                  cases hnode : nodeFromCompilerNode fr2 with
                  | error e =>
                      rw [stopType_error fr2 st (t :: nsSt) r e hnode] at hstop
                      exact Except.noConfusion hstop
                  | ok node =>
                      rw [stopType_pop fr2 st t nsSt r node hnode hns2 htne
                          hcomp2] at hstop
                      exact ⟨node, (Except.ok.inj hstop).symm⟩
              | cons t2 ts2 =>
                  rw [hnt] at hwfns
                  dsimp only at hwfns
                  exact Bool.noConfusion hwfns
end

/-- C9: `setNamespaceAttribute` pushes the namespace text onto the
namespace stack (besides recording it in the frame), and running any
well-formed bracketed type definition — in particular one defining a
namespaced record, enum or fixed type, whose `stopType` pops exactly the
one entry its body pushed — restores the namespace stack to its depth
(indeed its exact value) from before the frame was started. -/
theorem namespace_stack_push_pop_balanced :
    (∀ (text : String) (fr : CompilerNode) (st : List CompilerNode)
        (nsSt : List String) (r : Option Node),
        setNamespaceAttribute text ⟨fr :: st, nsSt, r⟩
          = .ok ⟨{ fr with
                    namespaceAttribute := fr.namespaceAttribute ++ [text] }
                   :: st, text :: nsSt, r⟩)
    ∧ (∀ (f : BFrame) (c c2 : CompilerContext), wfFrame f = true →
        runFrame f c = .ok c2 →
        c2.namespaceStack = c.namespaceStack) := by
  refine ⟨fun text fr st nsSt r => rfl, ?_⟩
  intro f c c2 hwf hrun
  obtain ⟨st, nsSt, r⟩ := c
  obtain ⟨node, hc2⟩ := runFrame_spec f st nsSt r c2 hwf hrun
  subst hc2
  cases st <;> rfl

/-- Witness for C9: building the namespaced fixed type of `fixedFrameEx`
from the empty context succeeds and leaves the namespace stack exactly
as it was (empty). -/
theorem namespace_stack_push_pop_balanced_witness :
    CompilerContext.namespaceStack
        { stack := [], namespaceStack := [],
          root := some (.fixed ["F"] [4] ["org.example"]) }
      = emptyCtx.namespaceStack :=
  namespace_stack_push_pop_balanced.2 fixedFrameEx emptyCtx
    { stack := [], namespaceStack := [],
      root := some (.fixed ["F"] [4] ["org.example"]) }
    (by decide) rfl
